import Mathlib

/-!
# Verification of the folkfriend-app-data index builder core

Shallow embedding of the two core algorithms of the repository:

* contour extraction and quantisation (`src/build/src/midi.py`:
  `CSVMidiNoteReader.to_notes`, `CSVMidiNoteReader.to_midi_contour`,
  `Note.set_tempo`, `Note.rel_pitch`, and the constants of
  `src/build/src/ff_config.py`), and
* alias canonicalisation (`src/build/src/build_non_user_data.py`:
  `clean_alias`, `deduplicate_aliases`, `gather_aliases`).

Python floats are modelled as rationals (`ℚ`); Python `str.lower` is
modelled at ASCII semantics, matching `Char.toLower` (all inputs the
pipeline cares about are ASCII, since `NON_WORD_CHARS` strips everything
outside `[a-zA-Z ]`).  Python stable `sorted` is modelled by the stable
`List.insertionSort`.
-/

/-! ## Configuration constants (`ff_config.py`) -/

/-- `MIDI_HIGH = 95` from `ff_config.py`. -/
def MIDI_HIGH : Int := 95

/-- `MIDI_LOW = 48` from `ff_config.py`. -/
def MIDI_LOW : Int := 48

/-- `MIDI_NUM = MIDI_HIGH - MIDI_LOW + 1` from `ff_config.py`. -/
def MIDI_NUM : Int := MIDI_HIGH - MIDI_LOW + 1

/-- `MIDI_MAP = string.ascii_letters[:MIDI_NUM]` from `ff_config.py`:
the first 48 characters of `abc..zABC..Z`. -/
def MIDI_MAP : List Char := "abcdefghijklmnopqrstuvwxyzABCDEFGHIJKLMNOPQRSTUV".data

/-! ## Notes (`midi.py`, class `Note`)

A `Note` stores the raw midi-domain times (milliseconds at the default
tempo).  The Python class mutates `self.start` / `self.end` in
`set_tempo`; we model the rescaled values functionally.  The field
`stop` models the Python attribute `end` (a reserved word in Lean). -/

structure Note where
  start : Int
  stop : Int
  pitch : Int
deriving DecidableEq, Repr

/-- `ms_scale_factor` of `Note.set_tempo`:
`us_per_crotchet = 60000000 / tempo`, `ms_scale_factor = us_per_crotchet / 480000`. -/
def msScaleFactor (tempo : ℚ) : ℚ := (60000000 / tempo) / 480000

/-- `self.start = ms_scale_factor * self._midi_start` in `Note.set_tempo`. -/
def noteStartMs (tempo : ℚ) (n : Note) : ℚ := msScaleFactor tempo * n.start

/-- `self.end = ms_scale_factor * self._midi_end` in `Note.set_tempo`. -/
def noteEndMs (tempo : ℚ) (n : Note) : ℚ := msScaleFactor tempo * n.stop

/-- `Note.duration` (after `set_tempo`): `self.end - self.start`. -/
def noteDuration (tempo : ℚ) (n : Note) : ℚ := noteEndMs tempo n - noteStartMs tempo n

/-- `quaver_duration` in `to_midi_contour`: the rescaled duration of the
dummy note `Note(0, 240, None)`. -/
def quaverDuration (tempo : ℚ) : ℚ := noteDuration tempo ⟨0, 240, 0⟩

/-! ## Pitch folding (`Note.rel_pitch`) -/

/-- First `while` loop of `Note.rel_pitch`:
`while pitch <= ff_config.MIDI_LOW: pitch += 12`. -/
def addTwelves (p : Int) : Int :=
  if p ≤ MIDI_LOW then addTwelves (p + 12) else p
termination_by (MIDI_LOW + 1 - p).toNat
decreasing_by
  simp only [MIDI_LOW] at *
  omega

/-- Second `while` loop of `Note.rel_pitch`:
`while pitch >= ff_config.MIDI_HIGH: pitch -= 12`. -/
def subTwelves (p : Int) : Int :=
  if MIDI_HIGH ≤ p then subTwelves (p - 12) else p
termination_by (p - MIDI_HIGH + 1).toNat
decreasing_by
  simp only [MIDI_HIGH] at *
  omega

/-- The folded pitch computed by `Note.rel_pitch` just before the final
subtraction of `MIDI_LOW`. -/
def foldPitch (p : Int) : Int := subTwelves (addTwelves p)

/-- `Note.rel_pitch`: fold the pitch into the band, then return
`pitch - ff_config.MIDI_LOW`. -/
def rel_pitch (p : Int) : Int := foldPitch p - MIDI_LOW

/-! ## The quantizer walk (`CSVMidiNoteReader.to_midi_contour`)

The loop state: `music_time`, `output_time` and the accumulated list of
contour pitch indices (the final `''.join(ff_config.MIDI_MAP[n] ...)`
rendering is `renderContour` below). -/

structure QState where
  musicTime : ℚ
  outputTime : ℚ
  contour : List Int
deriving DecidableEq, Repr

/-- The test `if start_seconds and note.end < 1000 * start_seconds`;
`start_seconds` of `None` or `0` is falsy in Python. -/
def windowStartSkip (startSeconds : Option ℚ) (noteEnd : ℚ) : Bool :=
  match startSeconds with
  | none => false
  | some s => if s = 0 then false else decide (noteEnd < 1000 * s)

/-- The test `if end_seconds and note.start > 1000 * end_seconds`;
`end_seconds` of `None` or `0` is falsy in Python. -/
def windowEndStop (endSeconds : Option ℚ) (noteStart : ℚ) : Bool :=
  match endSeconds with
  | none => false
  | some e => if e = 0 then false else decide (1000 * e < noteStart)

/-- One full run of the `for _, note in enumerate(self._notes)` loop of
`to_midi_contour`, from state `st`, over the remaining notes.  The
`break` on the window end returns the current state.  `is_integer()` on
the rational `rel_duration` is `den = 1`, and `int(rel_duration)` is
then its numerator; a negative repetition count gives an empty list,
exactly as Python `[x] * n` does. -/
def quantWalk (tempo : ℚ) (startSeconds endSeconds : Option ℚ) :
    QState → List Note → QState
  | st, [] => st
  | st, n :: rest =>
    if windowStartSkip startSeconds (noteEndMs tempo n) then
      quantWalk tempo startSeconds endSeconds
        ⟨noteEndMs tempo n, noteEndMs tempo n, st.contour⟩ rest
    else if windowEndStop endSeconds (noteStartMs tempo n) then st
    else
      let m := st.musicTime + noteDuration tempo n
      if m ≤ st.outputTime then
        quantWalk tempo startSeconds endSeconds ⟨m, st.outputTime, st.contour⟩ rest
      else
        let relDuration := noteDuration tempo n / quaverDuration tempo
        if relDuration.den = 1 then
          quantWalk tempo startSeconds endSeconds
            ⟨m, st.outputTime + noteDuration tempo n,
             st.contour ++ List.replicate relDuration.num.toNat (rel_pitch n.pitch)⟩ rest
        else if relDuration < 1 then
          quantWalk tempo startSeconds endSeconds
            ⟨m, st.outputTime + quaverDuration tempo,
             st.contour ++ [rel_pitch n.pitch]⟩ rest
        else
          let roundedInt : Int :=
            if st.outputTime < m then ⌈relDuration⌉ else ⌊relDuration⌋
          quantWalk tempo startSeconds endSeconds
            ⟨m, st.outputTime + roundedInt * quaverDuration tempo,
             st.contour ++ List.replicate roundedInt.toNat (rel_pitch n.pitch)⟩ rest

/-- `to_midi_contour` on an already-built note list: run the walk from
the zero state and keep the emitted pitch indices. -/
def to_midi_contour (tempo : ℚ) (startSeconds endSeconds : Option ℚ)
    (notes : List Note) : List Int :=
  (quantWalk tempo startSeconds endSeconds ⟨0, 0, []⟩ notes).contour

/-- The final `''.join(ff_config.MIDI_MAP[n] for n in midi_contour)`.
Indexing is total here because `rel_pitch` always lands in `[1, 46]`. -/
def renderContour (contour : List Int) : String :=
  ⟨contour.map (fun n => MIDI_MAP.getD n.toNat ' ')⟩

/-! ## The timeline builder (`CSVMidiNoteReader.to_notes`)

A csv record; only the fields used by `to_notes` are modelled.  Per the
event data model the `time` field is an integer (`int(record['time'])`);
the `note` field is kept as a string so that the
`record['note'].isdigit()` guard is faithful. -/

structure MidiRecord where
  type : String
  note : String
  time : Int
deriving DecidableEq, Repr

/-- `record['note'] and record['note'].isdigit()`: nonempty and all
ASCII digits. -/
def isDigits (s : String) : Bool := s ≠ "" && s.data.all (·.isDigit)

/-- `int(...)` on a digit string. -/
def parseDigits (s : String) : Int :=
  (s.data.foldl (fun n c => 10 * n + (c.toNat - 48)) 0 : Nat)

/-- `active_notes` is the Python dict from pitch to open time; model it
as an association list (lookup of the first matching key). -/
def findA (k : Int) : List (Int × Int) → Option Int
  | [] => none
  | (k₀, v) :: rest => if k₀ = k then some v else findA k rest

/-- `active_notes.pop(note)`: removal of the (unique) entry. -/
def eraseA (k : Int) : List (Int × Int) → List (Int × Int)
  | [] => []
  | (k₀, v) :: rest => if k₀ = k then rest else (k₀, v) :: eraseA k rest

/-- One iteration of the `for record in self` loop of `to_notes`.  The
state is the pair (`active_notes`, `notes`). -/
def toNotesStep (st : List (Int × Int) × List Note) (r : MidiRecord) :
    List (Int × Int) × List Note :=
  if ¬ isDigits r.note then st
  else
    let note := parseDigits r.note
    let time := r.time
    if r.type = "Note_on_c" then
      if findA note st.1 = none then ((note, time) :: st.1, st.2) else st
    else if r.type = "Note_off_c" then
      match findA note st.1 with
      | none => st
      | some noteStart => (eraseA note st.1, st.2 ++ [⟨noteStart, time, note⟩])
    else st

/-- `to_notes`: fold the step over the record stream, starting from an
empty dict and an empty note list. -/
def to_notes (records : List MidiRecord) : List Note :=
  (records.foldl toNotesStep ([], [])).2

/-! ## Step lemmas for the quantizer walk, one per branch of the loop body -/

theorem quantWalk_nil (tempo : ℚ) (ss es : Option ℚ) (st : QState) :
    quantWalk tempo ss es st [] = st := rfl

theorem quantWalk_cons_startSkip {tempo : ℚ} {ss es : Option ℚ} {st : QState} {n : Note}
    {rest : List Note}
    (h1 : windowStartSkip ss (noteEndMs tempo n) = true) :
    quantWalk tempo ss es st (n :: rest) =
      quantWalk tempo ss es ⟨noteEndMs tempo n, noteEndMs tempo n, st.contour⟩ rest := by
  rw [quantWalk, h1]
  simp

theorem quantWalk_cons_break {tempo : ℚ} {ss es : Option ℚ} {st : QState} {n : Note}
    {rest : List Note}
    (h1 : windowStartSkip ss (noteEndMs tempo n) = false)
    (h2 : windowEndStop es (noteStartMs tempo n) = true) :
    quantWalk tempo ss es st (n :: rest) = st := by
  rw [quantWalk, h1, h2]
  simp

theorem quantWalk_cons_syncSkip {tempo : ℚ} {ss es : Option ℚ} {st : QState} {n : Note}
    {rest : List Note}
    (h1 : windowStartSkip ss (noteEndMs tempo n) = false)
    (h2 : windowEndStop es (noteStartMs tempo n) = false)
    (h3 : st.musicTime + noteDuration tempo n ≤ st.outputTime) :
    quantWalk tempo ss es st (n :: rest) =
      quantWalk tempo ss es
        ⟨st.musicTime + noteDuration tempo n, st.outputTime, st.contour⟩ rest := by
  rw [quantWalk, h1, h2]
  simp only [Bool.false_eq_true, if_false, if_pos h3]

theorem quantWalk_cons_intDuration {tempo : ℚ} {ss es : Option ℚ} {st : QState} {n : Note}
    {rest : List Note}
    (h1 : windowStartSkip ss (noteEndMs tempo n) = false)
    (h2 : windowEndStop es (noteStartMs tempo n) = false)
    (h3 : ¬ st.musicTime + noteDuration tempo n ≤ st.outputTime)
    (h4 : (noteDuration tempo n / quaverDuration tempo).den = 1) :
    quantWalk tempo ss es st (n :: rest) =
      quantWalk tempo ss es
        ⟨st.musicTime + noteDuration tempo n, st.outputTime + noteDuration tempo n,
         st.contour ++
           List.replicate (noteDuration tempo n / quaverDuration tempo).num.toNat
             (rel_pitch n.pitch)⟩ rest := by
  rw [quantWalk, h1, h2]
  simp only [Bool.false_eq_true, if_false, if_neg h3, if_pos h4]

theorem quantWalk_cons_lt1 {tempo : ℚ} {ss es : Option ℚ} {st : QState} {n : Note}
    {rest : List Note}
    (h1 : windowStartSkip ss (noteEndMs tempo n) = false)
    (h2 : windowEndStop es (noteStartMs tempo n) = false)
    (h3 : ¬ st.musicTime + noteDuration tempo n ≤ st.outputTime)
    (h4 : (noteDuration tempo n / quaverDuration tempo).den ≠ 1)
    (h5 : noteDuration tempo n / quaverDuration tempo < 1) :
    quantWalk tempo ss es st (n :: rest) =
      quantWalk tempo ss es
        ⟨st.musicTime + noteDuration tempo n, st.outputTime + quaverDuration tempo,
         st.contour ++ [rel_pitch n.pitch]⟩ rest := by
  rw [quantWalk, h1, h2]
  simp only [Bool.false_eq_true, if_false, if_neg h3, if_neg h4, if_pos h5]

theorem quantWalk_cons_round {tempo : ℚ} {ss es : Option ℚ} {st : QState} {n : Note}
    {rest : List Note}
    (h1 : windowStartSkip ss (noteEndMs tempo n) = false)
    (h2 : windowEndStop es (noteStartMs tempo n) = false)
    (h3 : ¬ st.musicTime + noteDuration tempo n ≤ st.outputTime)
    (h4 : (noteDuration tempo n / quaverDuration tempo).den ≠ 1)
    (h5 : ¬ noteDuration tempo n / quaverDuration tempo < 1) :
    quantWalk tempo ss es st (n :: rest) =
      quantWalk tempo ss es
        ⟨st.musicTime + noteDuration tempo n,
         st.outputTime +
           (if st.outputTime < st.musicTime + noteDuration tempo n then
              ⌈noteDuration tempo n / quaverDuration tempo⌉
            else ⌊noteDuration tempo n / quaverDuration tempo⌋) * quaverDuration tempo,
         st.contour ++
           List.replicate
             (if st.outputTime < st.musicTime + noteDuration tempo n then
                ⌈noteDuration tempo n / quaverDuration tempo⌉
              else ⌊noteDuration tempo n / quaverDuration tempo⌋).toNat
             (rel_pitch n.pitch)⟩ rest := by
  rw [quantWalk, h1, h2]
  simp only [Bool.false_eq_true, if_false, if_neg h3, if_neg h4, if_neg h5]

/-! ## Drift invariant of the quantizer walk -/

theorem quaverDuration_pos {tempo : ℚ} (ht : 0 < tempo) : 0 < quaverDuration tempo := by
  simp only [quaverDuration, noteDuration, noteEndMs, noteStartMs, msScaleFactor]
  push_cast
  rw [mul_zero, sub_zero]
  positivity

/-- Core invariant of `to_midi_contour`: for a positive tempo, after any
number of loop iterations `music_time` never exceeds `output_time`. -/
theorem quantWalk_le {tempo : ℚ} (ht : 0 < tempo) (ss es : Option ℚ) (l : List Note) :
    ∀ st : QState, st.musicTime ≤ st.outputTime →
      (quantWalk tempo ss es st l).musicTime ≤ (quantWalk tempo ss es st l).outputTime := by
  have hq : 0 < quaverDuration tempo := quaverDuration_pos ht
  induction l with
  | nil => intro st h; rw [quantWalk_nil]; exact h
  | cons n rest ih =>
    intro st h
    by_cases h1 : windowStartSkip ss (noteEndMs tempo n) = true
    · rw [quantWalk_cons_startSkip h1]
      exact ih _ le_rfl
    rw [Bool.not_eq_true] at h1
    by_cases h2 : windowEndStop es (noteStartMs tempo n) = true
    · rw [quantWalk_cons_break h1 h2]
      exact h
    rw [Bool.not_eq_true] at h2
    by_cases h3 : st.musicTime + noteDuration tempo n ≤ st.outputTime
    · rw [quantWalk_cons_syncSkip h1 h2 h3]
      exact ih _ h3
    by_cases h4 : (noteDuration tempo n / quaverDuration tempo).den = 1
    · rw [quantWalk_cons_intDuration h1 h2 h3 h4]
      exact ih _ (by dsimp only; exact add_le_add_right h _)
    by_cases h5 : noteDuration tempo n / quaverDuration tempo < 1
    · rw [quantWalk_cons_lt1 h1 h2 h3 h4 h5]
      refine ih _ ?_
      dsimp only
      have hd : noteDuration tempo n < quaverDuration tempo := (div_lt_one hq).mp h5
      exact add_le_add h hd.le
    · rw [quantWalk_cons_round h1 h2 h3 h4 h5]
      refine ih _ ?_
      dsimp only
      rw [if_pos (lt_of_not_ge h3)]
      have hr : noteDuration tempo n / quaverDuration tempo ≤
          (⌈noteDuration tempo n / quaverDuration tempo⌉ : ℚ) := Int.le_ceil _
      have hd : noteDuration tempo n ≤
          (⌈noteDuration tempo n / quaverDuration tempo⌉ : ℚ) * quaverDuration tempo := by
        calc noteDuration tempo n
            = noteDuration tempo n / quaverDuration tempo * quaverDuration tempo := by
              rw [div_mul_cancel₀ _ hq.ne']
          _ ≤ (⌈noteDuration tempo n / quaverDuration tempo⌉ : ℚ) * quaverDuration tempo :=
              mul_le_mul_of_nonneg_right hr hq.le
      exact add_le_add h hd

set_option linter.unnecessarySeqFocus false

/-- Concrete run used to refute the two-sided drift bound: a 1 ms note
followed by a 360 ms note (1.5 quavers) at the default tempo. -/
theorem quantWalk_drift_run :
    quantWalk 125 none none ⟨0, 0, []⟩ [⟨0, 1, 60⟩, ⟨1, 361, 60⟩] =
      ⟨361, 720, [12, 12, 12]⟩ := by
  have hq : quaverDuration 125 = 240 := by
    norm_num [quaverDuration, noteDuration, noteEndMs, noteStartMs, msScaleFactor]
  have hd1 : noteDuration 125 ⟨0, 1, 60⟩ = 1 := by
    norm_num [noteDuration, noteEndMs, noteStartMs, msScaleFactor]
  have hd2 : noteDuration 125 ⟨1, 361, 60⟩ = 360 := by
    norm_num [noteDuration, noteEndMs, noteStartMs, msScaleFactor]
  have hp : rel_pitch 60 = 12 := by
    simp [rel_pitch, foldPitch, addTwelves, subTwelves, MIDI_LOW, MIDI_HIGH]
  have hr1 : noteDuration 125 ⟨0, 1, 60⟩ / quaverDuration 125 = 1 / 240 := by
    rw [hd1, hq]
  have hr2 : noteDuration 125 ⟨1, 361, 60⟩ / quaverDuration 125 = 3 / 2 := by
    rw [hd2, hq]; norm_num
  have hc : ⌈(3 / 2 : ℚ)⌉ = 2 := by
    rw [Int.ceil_eq_iff] <;> constructor <;> norm_num
  rw [quantWalk_cons_lt1 (by rfl) (by rfl) (by simp [hd1]) (by rw [hr1]; norm_num)
    (by rw [hr1]; norm_num)]
  simp only [hd1, hq, hp]
  norm_num
  rw [quantWalk_cons_round (by rfl) (by rfl) (by simp [hd2]; norm_num) (by rw [hr2]; norm_num)
    (by rw [hr2]; norm_num)]
  simp only [hd2, hq, hp]
  have hc2 : ⌈(360 : ℚ) / 240⌉ = 2 := by
    rw [show ((360 : ℚ) / 240) = 3 / 2 by norm_num, Int.ceil_eq_iff] <;> constructor <;> norm_num
  norm_num [hc2, quantWalk_nil]
  rw [hc]
  norm_num [List.replicate]

/-- C1, counterexample: on the note sequence `[Note(0, 1, 60),
Note(1, 361, 60)]` at the default tempo 125 the walk ends with
`music_time = 361` and `output_time = 720`, so the absolute difference
`359` exceeds one quaver duration (`240`): the claimed two-sided bound
is false at this prefix. -/
theorem quantWalk_drift_bound_counterexample :
    ¬ (|(quantWalk 125 none none ⟨0, 0, []⟩ [⟨0, 1, 60⟩, ⟨1, 361, 60⟩]).outputTime -
        (quantWalk 125 none none ⟨0, 0, []⟩ [⟨0, 1, 60⟩, ⟨1, 361, 60⟩]).musicTime| ≤
      quaverDuration 125) := by
  rw [quantWalk_drift_run]
  have hq : quaverDuration 125 = 240 := by
    norm_num [quaverDuration, noteDuration, noteEndMs, noteStartMs, msScaleFactor]
  rw [hq]
  norm_num

/-- C1, amended: at every prefix of the quantizer walk (any number of
processed notes), `music_time` never exceeds `output_time`; hence
`music_time - output_time ≤ quaverDurationMs` always holds.  The bound
in the other direction is what the counterexample refutes. -/
theorem quantWalk_drift_one_sided (notes : List Note) (tempo : ℚ) (ht : 0 < tempo)
    (ss es : Option ℚ) (k : ℕ) :
    (quantWalk tempo ss es ⟨0, 0, []⟩ (notes.take k)).musicTime ≤
        (quantWalk tempo ss es ⟨0, 0, []⟩ (notes.take k)).outputTime ∧
      (quantWalk tempo ss es ⟨0, 0, []⟩ (notes.take k)).musicTime -
          (quantWalk tempo ss es ⟨0, 0, []⟩ (notes.take k)).outputTime ≤
        quaverDuration tempo := by
  have h := quantWalk_le ht ss es (notes.take k) ⟨0, 0, []⟩ le_rfl
  refine ⟨h, ?_⟩
  have hq : 0 < quaverDuration tempo := quaverDuration_pos ht
  linarith

/-- Witness for `quantWalk_drift_one_sided` at a concrete input. -/
theorem quantWalk_drift_one_sided_witness :
    (0 : ℚ) < 125 ∧
      ((quantWalk 125 none none ⟨0, 0, []⟩ (([⟨0, 240, 60⟩] : List Note).take 1)).musicTime ≤
          (quantWalk 125 none none ⟨0, 0, []⟩ (([⟨0, 240, 60⟩] : List Note).take 1)).outputTime ∧
        (quantWalk 125 none none ⟨0, 0, []⟩ (([⟨0, 240, 60⟩] : List Note).take 1)).musicTime -
            (quantWalk 125 none none ⟨0, 0, []⟩ (([⟨0, 240, 60⟩] : List Note).take 1)).outputTime ≤
          quaverDuration 125) :=
  ⟨by norm_num, quantWalk_drift_one_sided [⟨0, 240, 60⟩] 125 (by norm_num) none none 1⟩

/-! ## The floor branch of the rounding step is dead code -/

/-- `to_midi_contour` with the rounding conditional
`math.ceil if music_time > output_time else math.floor` replaced by
an unconditional `math.ceil`; all other code identical to `quantWalk`. -/
def quantWalkCeil (tempo : ℚ) (startSeconds endSeconds : Option ℚ) :
    QState → List Note → QState
  | st, [] => st
  | st, n :: rest =>
    if windowStartSkip startSeconds (noteEndMs tempo n) then
      quantWalkCeil tempo startSeconds endSeconds
        ⟨noteEndMs tempo n, noteEndMs tempo n, st.contour⟩ rest
    else if windowEndStop endSeconds (noteStartMs tempo n) then st
    else
      let m := st.musicTime + noteDuration tempo n
      if m ≤ st.outputTime then
        quantWalkCeil tempo startSeconds endSeconds ⟨m, st.outputTime, st.contour⟩ rest
      else
        let relDuration := noteDuration tempo n / quaverDuration tempo
        if relDuration.den = 1 then
          quantWalkCeil tempo startSeconds endSeconds
            ⟨m, st.outputTime + noteDuration tempo n,
             st.contour ++ List.replicate relDuration.num.toNat (rel_pitch n.pitch)⟩ rest
        else if relDuration < 1 then
          quantWalkCeil tempo startSeconds endSeconds
            ⟨m, st.outputTime + quaverDuration tempo,
             st.contour ++ [rel_pitch n.pitch]⟩ rest
        else
          quantWalkCeil tempo startSeconds endSeconds
            ⟨m, st.outputTime + ⌈relDuration⌉ * quaverDuration tempo,
             st.contour ++ List.replicate ⌈relDuration⌉.toNat (rel_pitch n.pitch)⟩ rest

/-- C9: whenever control reaches the emission step the guard
`music_time <= output_time: continue` has just failed, so
`music_time > output_time` holds and the rounding conditional always
picks `math.ceil`; the `math.floor` branch is unreachable.  Stated as:
the walk coincides with the ceil-only walk on every input (every state,
note list, tempo and window). -/
theorem quantWalk_eq_quantWalkCeil (tempo : ℚ) (ss es : Option ℚ) (l : List Note) :
    ∀ st : QState, quantWalk tempo ss es st l = quantWalkCeil tempo ss es st l := by
  induction l with
  | nil => intro st; rfl
  | cons n rest ih =>
    intro st
    rw [quantWalk, quantWalkCeil]
    by_cases h1 : windowStartSkip ss (noteEndMs tempo n) = true
    · simp only [h1, if_true]
      exact ih _
    rw [Bool.not_eq_true] at h1
    by_cases h2 : windowEndStop es (noteStartMs tempo n) = true
    · simp only [h1, h2, Bool.false_eq_true, if_false, if_true]
    rw [Bool.not_eq_true] at h2
    by_cases h3 : st.musicTime + noteDuration tempo n ≤ st.outputTime
    · simp only [h1, h2, Bool.false_eq_true, if_false, if_pos h3]
      exact ih _
    by_cases h4 : (noteDuration tempo n / quaverDuration tempo).den = 1
    · simp only [h1, h2, Bool.false_eq_true, if_false, if_neg h3, if_pos h4]
      exact ih _
    by_cases h5 : noteDuration tempo n / quaverDuration tempo < 1
    · simp only [h1, h2, Bool.false_eq_true, if_false, if_neg h3, if_neg h4, if_pos h5]
      exact ih _
    · simp only [h1, h2, Bool.false_eq_true, if_false, if_neg h3, if_neg h4, if_neg h5,
        if_pos (lt_of_not_ge h3)]
      exact ih _

/-! ## The window-end test is strict -/

/-- C5, counterexample: with `end_seconds = 1` and a note starting at
exactly `1000 * end_seconds = 1000` ms (default tempo), the walk does
not stop: the note is processed and emits one symbol, while the claim
says a note starting exactly at the window end emits none. -/
theorem quantWalk_end_boundary_counterexample :
    ¬ ((quantWalk 125 none (some 1) ⟨0, 0, []⟩ [⟨1000, 1240, 60⟩]).contour = []) := by
  have hd : noteDuration 125 ⟨1000, 1240, 60⟩ = 240 := by
    norm_num [noteDuration, noteEndMs, noteStartMs, msScaleFactor]
  have hq : quaverDuration 125 = 240 := by
    norm_num [quaverDuration, noteDuration, noteEndMs, noteStartMs, msScaleFactor]
  have hr : noteDuration 125 ⟨1000, 1240, 60⟩ / quaverDuration 125 = 1 := by
    rw [hd, hq]; norm_num
  have h2 : windowEndStop (some 1) (noteStartMs 125 ⟨1000, 1240, 60⟩) = false := by
    have : noteStartMs 125 ⟨1000, 1240, 60⟩ = 1000 := by
      norm_num [noteStartMs, msScaleFactor]
    simp [windowEndStop, this]
  rw [quantWalk_cons_intDuration (by rfl) h2 (by simp [hd]) (by rw [hr]; exact Rat.den_one)]
  simp [quantWalk_nil, hr]

/-- C5, amended: the walk stops at a note whose (rescaled) start time is
strictly greater than `1000 * end_seconds`; a note starting exactly at
the window end is processed normally (the Python test is
`note.start > 1000 * end_seconds`, not `>=`). -/
theorem quantWalk_break_strict (tempo e : ℚ) (he : e ≠ 0) (st : QState) (n : Note)
    (rest : List Note) (h : 1000 * e < noteStartMs tempo n) :
    quantWalk tempo none (some e) st (n :: rest) = st :=
  quantWalk_cons_break (by rfl) (by simp [windowEndStop, he, h])

/-- Witness for `quantWalk_break_strict` at a concrete input. -/
theorem quantWalk_break_strict_witness :
    ((1 : ℚ) ≠ 0 ∧ 1000 * (1 : ℚ) < noteStartMs 125 ⟨2000, 2240, 60⟩) ∧
      quantWalk 125 none (some 1) ⟨0, 0, []⟩ [⟨2000, 2240, 60⟩] = ⟨0, 0, []⟩ :=
  ⟨⟨by norm_num, by norm_num [noteStartMs, msScaleFactor]⟩,
    quantWalk_break_strict 125 1 (by norm_num) ⟨0, 0, []⟩ ⟨2000, 2240, 60⟩ []
      (by norm_num [noteStartMs, msScaleFactor])⟩

/-! ## Pitch folder bounds (C2) -/

theorem addTwelves_gt (p : Int) : MIDI_LOW < addTwelves p := by
  induction p using addTwelves.induct with
  | case1 p h ih => rw [addTwelves, if_pos h]; exact ih
  | case2 p h => rw [addTwelves, if_neg h]; omega

theorem addTwelves_emod (p : Int) : addTwelves p % 12 = p % 12 := by
  induction p using addTwelves.induct with
  | case1 p h ih => rw [addTwelves, if_pos h]; omega
  | case2 p h => rw [addTwelves, if_neg h]

theorem subTwelves_lt (p : Int) : subTwelves p < MIDI_HIGH := by
  induction p using subTwelves.induct with
  | case1 p h ih => rw [subTwelves, if_pos h]; exact ih
  | case2 p h => rw [subTwelves, if_neg h]; omega

theorem subTwelves_gt {p : Int} (hp : MIDI_LOW < p) : MIDI_LOW < subTwelves p := by
  induction p using subTwelves.induct with
  | case1 p h ih =>
    rw [subTwelves, if_pos h]
    refine ih ?_
    simp only [MIDI_LOW, MIDI_HIGH] at *
    omega
  | case2 p h => rw [subTwelves, if_neg h]; exact hp

theorem subTwelves_emod (p : Int) : subTwelves p % 12 = p % 12 := by
  induction p using subTwelves.induct with
  | case1 p h ih => rw [subTwelves, if_pos h]; omega
  | case2 p h => rw [subTwelves, if_neg h]

/-- C2: for every integer pitch `p`, the folded pitch computed by
`Note.rel_pitch` lies strictly between `MIDI_LOW = 48` and
`MIDI_HIGH = 95`, is congruent to `p` modulo 12, and the returned
symbol index is the folded pitch minus `MIDI_LOW`. -/
theorem rel_pitch_spec (p : Int) :
    MIDI_LOW < foldPitch p ∧ foldPitch p < MIDI_HIGH ∧
      foldPitch p % 12 = p % 12 ∧ rel_pitch p = foldPitch p - MIDI_LOW := by
  refine ⟨subTwelves_gt (addTwelves_gt p), subTwelves_lt _, ?_, rfl⟩
  rw [foldPitch, subTwelves_emod, addTwelves_emod]

/-! ## Orphan note-off events are ignored (C8) -/

/-- C8: a `Note_off_c` record whose pitch has no open `Note_on_c` entry
leaves the whole `to_notes` state unchanged: no `Note` is produced,
`active_notes` and `notes` are untouched, and the step is a total
function (no exception path exists in this branch). -/
theorem toNotesStep_off_without_open (st : List (Int × Int) × List Note) (r : MidiRecord)
    (h1 : r.type = "Note_off_c")
    (h2 : findA (parseDigits r.note) st.1 = none) :
    toNotesStep st r = st := by
  rw [toNotesStep]
  by_cases hd : isDigits r.note = true
  · rw [if_neg (by simp [hd]), if_neg (by rw [h1]; decide), if_pos h1, h2]
  · rw [if_pos (by simpa using hd)]

/-- Witness for `toNotesStep_off_without_open` at a concrete record. -/
theorem toNotesStep_off_without_open_witness :
    ((⟨"Note_off_c", "60", 100⟩ : MidiRecord).type = "Note_off_c" ∧
      findA (parseDigits (⟨"Note_off_c", "60", 100⟩ : MidiRecord).note)
        (([], []) : List (Int × Int) × List Note).1 = none) ∧
      toNotesStep (([], []) : List (Int × Int) × List Note) ⟨"Note_off_c", "60", 100⟩ =
        (([], []) : List (Int × Int) × List Note) :=
  ⟨⟨rfl, rfl⟩, toNotesStep_off_without_open ([], []) ⟨"Note_off_c", "60", 100⟩ rfl rfl⟩

/-! ## Alias canonicalisation (`build_non_user_data.py`)

`clean_alias` is modelled at ASCII semantics: `str.lower` is
`Char.toLower` on each character, and after `NON_WORD_CHARS.sub` only
characters in `[a-zA-Z ]` remain, so `str.split()` is a split on the
space character that discards empty pieces (the `if w` filter). -/

/-- `STOP_WORDS` from `build_non_user_data.py`. -/
def STOP_WORDS : List String :=
  ["a", "an", "the", "at", "by", "for", "in", "of", "on",
   "to", "up", "and", "as", "but", "or", "nor"]

/-- A character kept by `NON_WORD_CHARS.sub('', alias)`, whose pattern
is `[^a-zA-Z ]`. -/
def wordChar (c : Char) : Bool :=
  ('a' ≤ c && c ≤ 'z') || ('A' ≤ c && c ≤ 'Z') || c = ' '

/-- Python `str.split` on spaces, keeping empty pieces between
consecutive separators (they are discarded by the `if w` filter, which
reproduces the behaviour of no-argument `split()`). -/
def splitOnSpace : List Char → List (List Char)
  | [] => [[]]
  | c :: rest =>
    match splitOnSpace rest with
    | [] => [[]]
    | t :: ts => if c = ' ' then [] :: t :: ts else (c :: t) :: ts

/-- `w[:-1] if w.endswith('s') else w` (naive singularisation). -/
def stripPlural (w : String) : String :=
  if w.data.getLast? = some 's' then ⟨w.data.dropLast⟩ else w

/-- `w if not w == 'favorite' else 'favourite'`. -/
def fixFavourite (w : String) : String :=
  if w = "favorite" then "favourite" else w

/-- `str.lower` (ASCII semantics). -/
def lowerStr (s : String) : String := ⟨s.data.map Char.toLower⟩

/-- The word list built by `clean_alias` before it is turned into a
`frozenset`: lower-case, strip non-word characters, split, drop empty
words and stopwords, singularise, normalise the American spelling. -/
def cleanWords (a : String) : List String :=
  let chars := (a.data.map Char.toLower).filter wordChar
  let pieces := (splitOnSpace chars).map (fun p => (⟨p⟩ : String))
  let words := pieces.filter (fun w => w ≠ "" && !(STOP_WORDS.contains w))
  (words.map stripPlural).map fixFavourite

/-- `clean_alias`: the canonical token set (`frozenset`) of an alias. -/
def clean_alias (a : String) : Finset String := (cleanWords a).toFinset

/-- First loop of `deduplicate_aliases`: keep the first alias bearing
each distinct canonical token set (`seen_aliases` is the Python set,
modelled as the list of sets seen so far). -/
def dedupPass : List String → List (Finset String) → List (Finset String × String)
  | [], _ => []
  | a :: rest, seen =>
    let cleaned := clean_alias a
    if cleaned ∈ seen then dedupPass rest seen
    else (cleaned, a) :: dedupPass rest (cleaned :: seen)

/-- The key of `sorted(deduped_aliases, key=lambda c: len(c[0]))`. -/
def cardLE (p q : Finset String × String) : Prop := p.1.card ≤ q.1.card

instance : DecidableRel cardLE := fun p q => Nat.decLe p.1.card q.1.card

instance : IsTotal (Finset String × String) cardLE :=
  ⟨fun p q => Nat.le_total p.1.card q.1.card⟩

instance : IsTrans (Finset String × String) cardLE :=
  ⟨fun _ _ _ h1 h2 => Nat.le_trans h1 h2⟩

/-- Lexicographic comparison of character lists by code point; this is
how Python compares two strings. -/
def charsLeB : List Char → List Char → Bool
  | [], _ => true
  | _ :: _, [] => false
  | a :: as, b :: bs => if a < b then true else if b < a then false else charsLeB as bs

/-- Python string comparison `s <= t`, used to model `sorted` on
alias strings. -/
def strLeB (s t : String) : Bool := charsLeB s.data t.data

/-- Second loop of `deduplicate_aliases`: drop pair `i` when its
cleaned set is a strict subset (`<` on frozensets) of the cleaned set
of any pair at position `>= i` (the scan includes the pair itself). -/
def subsetPass : List (Finset String × String) → List String
  | [] => []
  | (cleaned, a) :: rest =>
    if ((cleaned, a) :: rest).any (fun p => cleaned ⊂ p.1) then subsetPass rest
    else a :: subsetPass rest

/-- `deduplicate_aliases`: equal-set dedup, sort by token-set size,
subset removal, then back to alphabetical order. -/
def deduplicate_aliases (aliases : List String) : List String :=
  let deduped := List.insertionSort cardLE (dedupPass aliases [])
  List.insertionSort (fun s t => strLeB s t = true) (subsetPass deduped)

/-- The per-tune behaviour of `gather_aliases`: the alias records of one
tune are lower-cased and deduplicated, and then the display name is
prepended unless it is already the first element
(`if not aliases[tid] or aliases[tid][0] != alias: insert(0, alias)`). -/
def gatherTuneAliases (tuneAliases : List String) (name : String) : List String :=
  let l := deduplicate_aliases (tuneAliases.map lowerStr)
  if l = [] ∨ l.head? ≠ some (lowerStr name) then lowerStr name :: l else l

/-! ## Name-first ordering in `gather_aliases` (C3) -/

/-- C3, counterexample: for a tune whose deduplicated alias list is
`["thename", "zebra"]` and whose display name is `"zebra"`, the name is
prepended (the guard only checks position 0), so it occurs both first
and at a later position: the duplicate is not removed. -/
theorem gatherTuneAliases_dup_counterexample :
    gatherTuneAliases ["zebra", "thename"] "zebra" = ["zebra", "thename", "zebra"] ∧
      lowerStr "zebra" ∈ (gatherTuneAliases ["zebra", "thename"] "zebra").tail := by
  constructor
  · decide
  · decide

/-- C3, amended: the first element of the gathered alias list is always
the display name lower-cased; a duplicate occurrence of the name at a
later position is not removed (only a name already in first position
avoids re-insertion). -/
theorem gatherTuneAliases_head_eq_name (tuneAliases : List String) (name : String) :
    (gatherTuneAliases tuneAliases name).head? = some (lowerStr name) := by
  unfold gatherTuneAliases
  by_cases h : deduplicate_aliases (tuneAliases.map lowerStr) = [] ∨
      (deduplicate_aliases (tuneAliases.map lowerStr)).head? ≠ some (lowerStr name)
  · rw [if_pos h]
    rfl
  · rw [if_neg h]
    push_neg at h
    exact h.2

/-! ## `deduplicate_aliases` never empties a non-empty list (C10) -/

theorem subsetPass_ne_nil : ∀ {l : List (Finset String × String)}, l ≠ [] → subsetPass l ≠ []
  | [], h => absurd rfl h
  | (c, a) :: rest, _ => by
    rw [subsetPass]
    by_cases hany : (((c, a) :: rest).any (fun p => c ⊂ p.1)) = true
    · rw [if_pos hany]
      rw [List.any_eq_true] at hany
      obtain ⟨p, hp, hsub⟩ := hany
      rw [decide_eq_true_eq] at hsub
      rcases List.mem_cons.mp hp with h | h
      · subst h
        exact absurd hsub (ssubset_irrefl c)
      · have : rest ≠ [] := fun hn => by rw [hn] at h; exact absurd h (List.not_mem_nil p)
        exact subsetPass_ne_nil this
    · rw [if_neg hany]
      exact List.cons_ne_nil a _

theorem insertionSort_eq_nil {α : Type} {r : α → α → Prop} [DecidableRel r] {l : List α}
    (h : List.insertionSort r l = []) : l = [] := by
  have := congrArg List.length h
  rw [List.length_insertionSort] at this
  exact List.length_eq_zero.mp this

/-- C10: `deduplicate_aliases` maps a non-empty alias list to a
non-empty output; in particular the pair scanned last (which has a
token set of maximal size) can never be a strict subset of a pair at a
later position, so the subset pass always keeps at least one alias. -/
theorem deduplicate_aliases_ne_nil {aliases : List String} (h : aliases ≠ []) :
    deduplicate_aliases aliases ≠ [] := by
  intro hnil
  have hform : deduplicate_aliases aliases =
      List.insertionSort (fun s t => strLeB s t = true)
        (subsetPass (List.insertionSort cardLE (dedupPass aliases []))) := rfl
  rw [hform] at hnil
  have h2 := insertionSort_eq_nil hnil
  have h3 : List.insertionSort cardLE (dedupPass aliases []) ≠ [] := by
    intro hs
    have h4 := insertionSort_eq_nil hs
    cases aliases with
    | nil => exact h rfl
    | cons a rest =>
      rw [dedupPass] at h4
      simp at h4
  exact subsetPass_ne_nil h3 h2

/-- Witness for `deduplicate_aliases_ne_nil` at a concrete input. -/
theorem deduplicate_aliases_ne_nil_witness :
    (["blackbird"] : List String) ≠ [] ∧ deduplicate_aliases ["blackbird"] ≠ [] :=
  ⟨by decide, deduplicate_aliases_ne_nil (by decide)⟩

/-! ## Strict token-set subsets never survive deduplication (C4) -/

theorem dedupPass_fst : ∀ {l : List String} {seen : List (Finset String)}
    {c : Finset String} {a : String}, (c, a) ∈ dedupPass l seen → c = clean_alias a
  | [], _, _, _, h => absurd h (List.not_mem_nil _)
  | x :: rest, seen, c, a, h => by
    rw [dedupPass] at h
    by_cases hx : clean_alias x ∈ seen
    · rw [if_pos hx] at h
      exact dedupPass_fst h
    · rw [if_neg hx] at h
      rcases List.mem_cons.mp h with heq | hmem
      · obtain ⟨h1, h2⟩ := Prod.mk.injEq .. |>.mp heq
        rw [h1, h2]
      · exact dedupPass_fst hmem

theorem subsetPass_mem_split : ∀ {l : List (Finset String × String)} {a : String},
    a ∈ subsetPass l →
    ∃ c pre suf, l = pre ++ (c, a) :: suf ∧
      (((c, a) :: suf).any (fun p => c ⊂ p.1)) = false
  | [], a, h => absurd h (List.not_mem_nil a)
  | (c₀, a₀) :: rest, a, h => by
    rw [subsetPass] at h
    by_cases hany : (((c₀, a₀) :: rest).any (fun p => c₀ ⊂ p.1)) = true
    · rw [if_pos hany] at h
      obtain ⟨c, pre, suf, heq, hfalse⟩ := subsetPass_mem_split h
      exact ⟨c, (c₀, a₀) :: pre, suf, by rw [heq]; rfl, hfalse⟩
    · rw [if_neg hany] at h
      rcases List.mem_cons.mp h with heq | hmem
      · subst heq
        exact ⟨c₀, [], rest, rfl, Bool.eq_false_iff.mpr hany⟩
      · obtain ⟨c, pre, suf, heq, hfalse⟩ := subsetPass_mem_split hmem
        exact ⟨c, (c₀, a₀) :: pre, suf, by rw [heq]; rfl, hfalse⟩

/-- C4: if aliases `a` and `b` both survive the equal-set
deduplication pass and the canonical token set of `a` is a strict
subset of that of `b`, then the string `a` is absent from the final
deduplicated output.  The pair of `a` sorts strictly before the pair of
`b` (smaller token set), so the subset scan over positions `>= i` sees
the superset and drops `a`. -/
theorem subset_alias_dropped (aliases : List String) (sa sb : Finset String) (a b : String)
    (ha : (sa, a) ∈ dedupPass aliases [])
    (hb : (sb, b) ∈ dedupPass aliases [])
    (hsub : sa ⊂ sb) :
    a ∉ deduplicate_aliases aliases := by
  intro hmem
  have hform : deduplicate_aliases aliases =
      List.insertionSort (fun s t => strLeB s t = true)
        (subsetPass (List.insertionSort cardLE (dedupPass aliases []))) := rfl
  rw [hform, List.mem_insertionSort] at hmem
  obtain ⟨c, pre, suf, heq, hany⟩ := subsetPass_mem_split hmem
  have hca : c = clean_alias a := by
    have : (c, a) ∈ List.insertionSort cardLE (dedupPass aliases []) := by
      rw [heq]
      exact List.mem_append.mpr (Or.inr (List.mem_cons_self _ _))
    exact dedupPass_fst ((List.mem_insertionSort _).mp this)
  have hsa : sa = clean_alias a := dedupPass_fst ha
  have hcs : c = sa := by rw [hca, hsa]
  have hbp : (sb, b) ∈ List.insertionSort cardLE (dedupPass aliases []) :=
    (List.mem_insertionSort _).mpr hb
  rw [heq] at hbp
  rcases List.mem_append.mp hbp with hpre | hsuf
  · have hsorted : List.Sorted cardLE (pre ++ (c, a) :: suf) := by
      rw [← heq]
      exact List.sorted_insertionSort cardLE _
    have hrel : cardLE (sb, b) (c, a) :=
      (List.pairwise_append.mp hsorted).2.2 _ hpre _ (List.mem_cons_self _ _)
    have hlt : sa.card < sb.card := Finset.card_lt_card hsub
    have hle : sb.card ≤ sa.card := by
      rw [cardLE] at hrel
      simpa [hcs] using hrel
    omega
  · rw [List.any_eq_false] at hany
    have := hany (sb, b) hsuf
    rw [decide_eq_true_eq] at this
    exact this (hcs ▸ hsub)

/-- Witness for `subset_alias_dropped` at a concrete input. -/
theorem subset_alias_dropped_witness :
    ((({"blackbird"} : Finset String), "blackbird") ∈
        dedupPass ["blackbird", "blackbird reel"] [] ∧
      (({"blackbird", "reel"} : Finset String), "blackbird reel") ∈
        dedupPass ["blackbird", "blackbird reel"] [] ∧
      ({"blackbird"} : Finset String) ⊂ {"blackbird", "reel"}) ∧
      "blackbird" ∉ deduplicate_aliases ["blackbird", "blackbird reel"] :=
  ⟨⟨by decide, by decide, by decide⟩,
    subset_alias_dropped ["blackbird", "blackbird reel"] {"blackbird"}
      {"blackbird", "reel"} "blackbird" "blackbird reel" (by decide) (by decide) (by decide)⟩

/-! ## Aliases with an empty canonical token set (C6) -/

theorem dedupPass_covers : ∀ {l : List String} {seen : List (Finset String)} {x : String},
    x ∈ l → clean_alias x ∈ seen ∨ ∃ p ∈ dedupPass l seen, p.1 = clean_alias x
  | [], _, x, h => absurd h (List.not_mem_nil x)
  | y :: rest, seen, x, h => by
    rw [dedupPass]
    by_cases hy : clean_alias y ∈ seen
    · rw [if_pos hy]
      rcases List.mem_cons.mp h with heq | hx
      · subst heq
        exact Or.inl hy
      · exact dedupPass_covers hx
    · rw [if_neg hy]
      rcases List.mem_cons.mp h with heq | hx
      · subst heq
        exact Or.inr ⟨(clean_alias x, x), List.mem_cons_self _ _, rfl⟩
      · rcases @dedupPass_covers rest (clean_alias y :: seen) x hx with hseen | ⟨p, hp, hp1⟩
        · rcases List.mem_cons.mp hseen with heq | hseen2
          · exact Or.inr ⟨(clean_alias y, y), List.mem_cons_self _ _, heq.symm⟩
          · exact Or.inl hseen2
        · exact Or.inr ⟨p, List.mem_cons_of_mem _ hp, hp1⟩

/-- C6, counterexample: on the input `["the"]` (a stopword-only alias,
whose canonical token set is empty) the deduplicated output is
`["the"]` itself: the subset pass only drops an empty-set alias when a
pair with a non-empty set survives, so an empty-set alias does reach
the output. -/
theorem empty_token_set_counterexample :
    "the" ∈ deduplicate_aliases ["the"] ∧ clean_alias "the" = ∅ := by
  constructor
  · decide
  · decide

/-- C6, amended: as soon as some input alias has a non-empty canonical
token set, no alias with an empty canonical token set survives
deduplication (the empty set is a strict subset of any surviving
non-empty set, which sorts at a position at or after it). -/
theorem empty_token_set_needs_all_empty (aliases : List String)
    (h : ∃ x ∈ aliases, clean_alias x ≠ ∅) :
    ∀ a ∈ deduplicate_aliases aliases, clean_alias a ≠ ∅ := by
  intro a hmem hempty
  have hform : deduplicate_aliases aliases =
      List.insertionSort (fun s t => strLeB s t = true)
        (subsetPass (List.insertionSort cardLE (dedupPass aliases []))) := rfl
  rw [hform, List.mem_insertionSort] at hmem
  obtain ⟨c, pre, suf, heq, hany⟩ := subsetPass_mem_split hmem
  have hca : c = clean_alias a := by
    have : (c, a) ∈ List.insertionSort cardLE (dedupPass aliases []) := by
      rw [heq]
      exact List.mem_append.mpr (Or.inr (List.mem_cons_self _ _))
    exact dedupPass_fst ((List.mem_insertionSort _).mp this)
  have hc : c = ∅ := by rw [hca, hempty]
  obtain ⟨x, hx, hxe⟩ := h
  rcases @dedupPass_covers aliases [] x hx with hseen | ⟨p, hp, hp1⟩
  · exact absurd hseen (List.not_mem_nil _)
  have hpe : p.1 ≠ ∅ := by rw [hp1]; exact hxe
  have hbp : p ∈ List.insertionSort cardLE (dedupPass aliases []) :=
    (List.mem_insertionSort _).mpr hp
  rw [heq] at hbp
  rcases List.mem_append.mp hbp with hpre | hsuf
  · have hsorted : List.Sorted cardLE (pre ++ (c, a) :: suf) := by
      rw [← heq]
      exact List.sorted_insertionSort cardLE _
    have hrel : cardLE p (c, a) :=
      (List.pairwise_append.mp hsorted).2.2 _ hpre _ (List.mem_cons_self _ _)
    rw [cardLE] at hrel
    have : p.1.card = 0 := by
      have hc0 : (c, a).1.card = 0 := by simp [hc]
      omega
    exact hpe (Finset.card_eq_zero.mp this)
  · rw [List.any_eq_false] at hany
    have := hany p hsuf
    rw [decide_eq_true_eq] at this
    refine this ?_
    rw [hc]
    exact Finset.empty_ssubset.mpr (Finset.nonempty_iff_ne_empty.mpr hpe)

/-- Witness for `empty_token_set_needs_all_empty` at a concrete input. -/
theorem empty_token_set_needs_all_empty_witness :
    (∃ x ∈ (["the", "blackbird"] : List String), clean_alias x ≠ ∅) ∧
      ∀ a ∈ deduplicate_aliases ["the", "blackbird"], clean_alias a ≠ ∅ :=
  ⟨by decide, empty_token_set_needs_all_empty ["the", "blackbird"] (by decide)⟩

/-! ## Re-cleaning the tokens of a cleaned alias (C7) -/

theorem char_le_iff_toNat {a b : Char} : a ≤ b ↔ a.toNat ≤ b.toNat := Iff.rfl

theorem char_toNat_ofNat_add32 {n : Nat} (h65 : 65 ≤ n) (h90 : n ≤ 90) :
    (Char.ofNat (n + 32)).toNat = n + 32 := by
  have hv : (n + 32).isValidChar := Or.inl (by omega)
  rw [Char.ofNat, dif_pos hv]
  rfl

theorem toLower_not_upper (c : Char) :
    ¬ (65 ≤ (Char.toLower c).toNat ∧ (Char.toLower c).toNat ≤ 90) := by
  rw [Char.toLower]
  by_cases h : c.toNat ≥ 65 ∧ c.toNat ≤ 90
  · rw [if_pos h]
    rw [char_toNat_ofNat_add32 h.1 h.2]
    omega
  · rw [if_neg h]
    omega

theorem toLower_fixes_lower {c : Char} (h97 : 97 ≤ c.toNat) (h122 : c.toNat ≤ 122) :
    Char.toLower c = c := by
  rw [Char.toLower, if_neg (by omega)]

theorem splitOnSpace_ne_nil : ∀ (l : List Char), splitOnSpace l ≠ []
  | [] => by rw [splitOnSpace]; exact List.cons_ne_nil _ _
  | c :: rest => by
    rw [splitOnSpace]
    cases h : splitOnSpace rest with
    | nil => exact absurd h (splitOnSpace_ne_nil rest)
    | cons t ts =>
      by_cases hc : c = ' ' <;> simp [hc]

theorem splitOnSpace_chars : ∀ {l p : List Char} {c : Char},
    p ∈ splitOnSpace l → c ∈ p → c ∈ l ∧ ¬ c = ' '
  | [], p, c, hp, hc => by
    rw [splitOnSpace] at hp
    rcases List.mem_singleton.mp hp with rfl
    exact absurd hc (List.not_mem_nil c)
  | c₀ :: rest, p, c, hp, hc => by
    rcases hs : splitOnSpace rest with _ | ⟨t, ts⟩
    · exact absurd hs (splitOnSpace_ne_nil rest)
    rw [splitOnSpace, hs] at hp
    dsimp only at hp
    by_cases hc₀ : c₀ = ' '
    · rw [if_pos hc₀] at hp
      rcases List.mem_cons.mp hp with rfl | hp2
      · exact absurd hc (List.not_mem_nil c)
      · have : p ∈ splitOnSpace rest := by rw [hs]; exact hp2
        obtain ⟨h1, h2⟩ := splitOnSpace_chars this hc
        exact ⟨List.mem_cons_of_mem _ h1, h2⟩
    · rw [if_neg hc₀] at hp
      rcases List.mem_cons.mp hp with rfl | hp2
      · rcases List.mem_cons.mp hc with rfl | hct
        · exact ⟨List.mem_cons_self _ _, hc₀⟩
        · have ht : t ∈ splitOnSpace rest := by rw [hs]; exact List.mem_cons_self _ _
          obtain ⟨h1, h2⟩ := splitOnSpace_chars ht hct
          exact ⟨List.mem_cons_of_mem _ h1, h2⟩
      · have : p ∈ splitOnSpace rest := by rw [hs]; exact List.mem_cons_of_mem _ hp2
        obtain ⟨h1, h2⟩ := splitOnSpace_chars this hc
        exact ⟨List.mem_cons_of_mem _ h1, h2⟩

theorem splitOnSpace_no_space : ∀ {l : List Char}, (∀ c ∈ l, c ≠ ' ') → splitOnSpace l = [l]
  | [], _ => rfl
  | c :: rest, h => by
    have ih := splitOnSpace_no_space (fun x hx => h x (List.mem_cons_of_mem _ hx))
    rw [splitOnSpace, ih]
    dsimp only
    rw [if_neg (h c (List.mem_cons_self _ _))]

/-- Every token produced by `clean_alias` consists of lower-case ASCII
letters only: lowering leaves no upper-case letter, the `NON_WORD_CHARS`
filter leaves only letters and spaces, and splitting removes spaces. -/
theorem cleanWords_chars {a w : String} (hw : w ∈ cleanWords a) :
    ∀ c ∈ w.data, 97 ≤ c.toNat ∧ c.toNat ≤ 122 := by
  rw [cleanWords] at hw
  obtain ⟨w1, hw1, rfl⟩ := List.mem_map.mp hw
  obtain ⟨w2, hw2, rfl⟩ := List.mem_map.mp hw1
  have hw3 := List.mem_of_mem_filter hw2
  obtain ⟨p, hp, rfl⟩ := List.mem_map.mp hw3
  have hchars : ∀ c ∈ p, 97 ≤ c.toNat ∧ c.toNat ≤ 122 := by
    intro c hc
    obtain ⟨hcl, hcs⟩ := splitOnSpace_chars hp hc
    obtain ⟨hmem, hword⟩ := List.mem_filter.mp hcl
    obtain ⟨c₀, _, rfl⟩ := List.mem_map.mp hmem
    have hnu := toLower_not_upper c₀
    rw [wordChar, Bool.or_eq_true, Bool.or_eq_true, Bool.and_eq_true, Bool.and_eq_true] at hword
    rcases hword with (⟨hl, hr⟩ | ⟨hl, hr⟩) | heq
    · rw [decide_eq_true_eq, char_le_iff_toNat] at hl hr
      exact ⟨hl, hr⟩
    · rw [decide_eq_true_eq, char_le_iff_toNat] at hl hr
      exact absurd ⟨hl, hr⟩ hnu
    · rw [decide_eq_true_eq] at heq
      exact absurd heq hcs
  intro c hc
  rw [fixFavourite] at hc
  by_cases hf : stripPlural ⟨p⟩ = "favorite"
  · rw [if_pos hf] at hc
    revert hc
    revert c
    decide
  · rw [if_neg hf] at hc
    rw [stripPlural] at hc
    by_cases hs : (String.mk p).data.getLast? = some 's'
    · rw [if_pos hs] at hc
      exact hchars c ((List.dropLast_prefix p).subset hc)
    · rw [if_neg hs] at hc
      exact hchars c hc

/-- The spelling normalisation never outputs the string `favorite`. -/
theorem cleanWords_ne_favorite {a w : String} (hw : w ∈ cleanWords a) : w ≠ "favorite" := by
  rw [cleanWords] at hw
  obtain ⟨w1, _, rfl⟩ := List.mem_map.mp hw
  rw [fixFavourite]
  by_cases hf : w1 = "favorite"
  · rw [if_pos hf]
    decide
  · rw [if_neg hf]
    exact hf

theorem cleanWords_single {w : String} (hne : w ≠ "")
    (hstop : ¬ STOP_WORDS.contains w = true)
    (hs : w.data.getLast? ≠ some 's') (hfav : w ≠ "favorite")
    (hlow : ∀ c ∈ w.data, 97 ≤ c.toNat ∧ c.toNat ≤ 122) :
    cleanWords w = [w] := by
  rw [cleanWords]
  have h1 : w.data.map Char.toLower = w.data :=
    (List.map_congr_left fun c hc =>
      toLower_fixes_lower (hlow c hc).1 (hlow c hc).2).trans (List.map_id _)
  have h2 : w.data.filter wordChar = w.data := List.filter_eq_self.mpr (fun c hc => by
    rw [wordChar, Bool.or_eq_true, Bool.or_eq_true, Bool.and_eq_true]
    refine Or.inl (Or.inl ⟨?_, ?_⟩) <;>
      rw [decide_eq_true_eq, char_le_iff_toNat] <;>
      first
        | exact (hlow c hc).1
        | exact (hlow c hc).2)
  have h3 : splitOnSpace w.data = [w.data] := splitOnSpace_no_space (fun c hc heq => by
    have hl := hlow c hc
    rw [heq] at hl
    exact absurd hl (by decide))
  rw [h1, h2, h3, List.map_cons, List.map_nil,
    show String.mk w.data = w from rfl]
  have h5 : (decide (w ≠ "") && !STOP_WORDS.contains w) = true := by
    rw [Bool.and_eq_true, Bool.not_eq_true']
    exact ⟨decide_eq_true hne, Bool.eq_false_iff.mpr hstop⟩
  rw [List.filter_eq_self.mpr (fun x hx => by
    rcases List.mem_singleton.mp hx with rfl
    exact h5)]
  rw [List.map_cons, List.map_nil, stripPlural, if_neg hs]
  rw [List.map_cons, List.map_nil, fixFavourite, if_neg hfav]

/-- On a non-empty all-lower-case token that is not a stopword, does
not end in `s` and is not `favorite`, `clean_alias` is the identity. -/
theorem clean_alias_single {w : String} (hne : w ≠ "")
    (hstop : w ∉ STOP_WORDS)
    (hs : w.data.getLast? ≠ some 's') (hfav : w ≠ "favorite")
    (hlow : ∀ c ∈ w.data, 97 ≤ c.toNat ∧ c.toNat ≤ 122) :
    clean_alias w = {w} := by
  rw [clean_alias, cleanWords_single hne (by simpa using hstop) hs hfav hlow]
  simp

/-- C7, counterexample: `clean_alias "ats"` is `{"at"}` (the trailing
`s` is stripped after the stopword filter already ran), and re-cleaning
the token `"at"` yields the empty set because `"at"` is a stopword; so
applying the cleaner to the tokens of one application does not
reproduce the original token set. -/
theorem clean_alias_reclean_counterexample :
    ¬ ((clean_alias "ats").biUnion clean_alias = clean_alias "ats") := by decide

/-- C7, amended: the cleaner is idempotent on every alias whose cleaned
tokens are non-empty, are not stopwords and do not end in `s` (the
counterexample shows the plural-stripping step can create a stopword,
so some restriction of exactly this shape is necessary). -/
theorem clean_alias_reclean (a : String)
    (h : ∀ w ∈ clean_alias a, w ≠ "" ∧ w ∉ STOP_WORDS ∧ w.data.getLast? ≠ some 's') :
    (clean_alias a).biUnion clean_alias = clean_alias a := by
  have key : ∀ w ∈ clean_alias a, clean_alias w = {w} := by
    intro w hw
    obtain ⟨h1, h2, h3⟩ := h w hw
    have hwl : w ∈ cleanWords a := List.mem_toFinset.mp hw
    exact clean_alias_single h1 h2 h3 (cleanWords_ne_favorite hwl) (cleanWords_chars hwl)
  ext x
  simp only [Finset.mem_biUnion]
  constructor
  · rintro ⟨w, hw, hx⟩
    rw [key w hw] at hx
    have := Finset.mem_singleton.mp hx
    subst this
    exact hw
  · intro hx
    exact ⟨x, hx, by rw [key x hx]; exact Finset.mem_singleton_self x⟩

/-- Witness for `clean_alias_reclean` at a concrete input. -/
theorem clean_alias_reclean_witness :
    (∀ w ∈ clean_alias "blackbird reel",
        w ≠ "" ∧ w ∉ STOP_WORDS ∧ w.data.getLast? ≠ some 's') ∧
      (clean_alias "blackbird reel").biUnion clean_alias = clean_alias "blackbird reel" :=
  ⟨by decide, clean_alias_reclean "blackbird reel" (by decide)⟩
